import Mathlib

/-!
# Verification of the `blc` binary lambda calculus interpreter

Shallow embedding of the `blc` repository (Rust) into Lean 4.

* Lambda terms (`Term`) mirror `lambda_calculus::term::Term` (usize indices
  become `Nat`).
* The binary codec embeds `src/encoding/binary.rs`; the module
  `src/binary_encoding.rs` is character-for-character identical apart from
  a debug `println!` and a no-op `u8::to_be`, so both are embedded by the
  same definitions (`from_binary = from_bits`, …).
* Byte values and ASCII characters are `Nat`s; strings are lists of
  Unicode codepoints (`List Nat`).
* Rust panics (out-of-bounds slicing, arithmetic underflow, `unwrap` on an
  error) are modelled explicitly: fallible embedded functions have a
  dedicated `panicked`/`none` outcome.  Wrapping `u8`/`usize` arithmetic is
  modelled by `% 256` arithmetic (release-mode semantics); the claims only
  exercise inputs on which debug and release semantics agree, except where
  a panic is the verified outcome itself (in those cases both modes panic).
-/

deriving instance DecidableEq for Except

/-- The term datatype of the `lambda_calculus` crate used by `blc`:
`Var(usize)`, `Abs(Box<Term>)`, `App(Box<Term>, Box<Term>)`. -/
inductive Term where
  | Var : Nat → Term
  | Abs : Term → Term
  | App : Term → Term → Term
deriving DecidableEq, Repr

/-- Structural size of a term, used as recursion fuel for functions that
recurse through `uncons`-style destructuring. -/
def tsize : Term → Nat
  | .Var _ => 1
  | .Abs b => tsize b + 1
  | .App f x => tsize f + tsize x + 1

/-- Church true, `lambda_calculus::data::boolean::tru() = λλ2`. -/
def tru : Term := .Abs (.Abs (.Var 2))

/-- Church false, `lambda_calculus::data::boolean::fls() = λλ1`; also the
empty list `nil`. -/
def fls : Term := .Abs (.Abs (.Var 1))

/-! ## Binary codec: `src/encoding/binary.rs` (= `src/binary_encoding.rs`) -/

/-- Outcome of the recursive parser `_from_bits`: a Rust panic, a parse
failure (`None`), or a parsed term together with the unconsumed input. -/
inductive PRes where
  | panicked : PRes
  | failed : PRes
  | parsed : Term → List Nat → PRes
deriving DecidableEq, Repr

/-- Fueled embedding of `_from_bits` (`src/encoding/binary.rs:32`).  Fuel is
an upper bound on recursion depth; every recursive call is on a strictly
shorter input, so `input.length + 1` fuel (as used by `from_bits`) always
suffices — see `pfb_fuel_irrelevant`.

Panics of the Rust source are reproduced exactly:
* `&input[0..2]` on a one-byte input is out of bounds (`PRes.panicked`);
* in the variable branch, `&input[i+1..]` is out of bounds when the whole
  remaining input consists of `'1'` bytes (`i = input.len()`). -/
def pfb : Nat → List Nat → PRes
  | 0, _ => .failed
  | _ + 1, [] => .failed
  | fuel + 1, b :: bs =>
    if b = 9 ∨ b = 10 ∨ b = 13 ∨ b = 32 then
      pfb fuel bs
    else
      match bs with
      | [] => .panicked
      | b1 :: rest2 =>
        if b = 48 ∧ b1 = 48 then
          match pfb fuel rest2 with
          | .parsed t r => .parsed (.Abs t) r
          | .panicked => .panicked
          | .failed => .failed
        else if b = 48 ∧ b1 = 49 then
          match pfb fuel rest2 with
          | .parsed t1 r1 =>
            (match pfb fuel r1 with
             | .parsed t2 r2 => .parsed (.App t1 t2) r2
             | .panicked => .panicked
             | .failed => .failed)
          | .panicked => .panicked
          | .failed => .failed
        else if b = 49 ∧ (b1 = 48 ∨ b1 = 49) then
          let input := b :: b1 :: rest2
          let i := (input.takeWhile (fun c => c = 49)).length
          if rest2 = [] then .parsed (.Var i) []
          else if input.length < i + 1 then .panicked
          else .parsed (.Var i) (input.drop (i + 1))
        else .failed

/-- Result of the public parser `from_bits`. -/
inductive ParseRes where
  | panicked : ParseRes
  | notATerm : ParseRes
  | ok : Term → ParseRes
deriving DecidableEq, Repr

/-- `from_bits` (`src/encoding/binary.rs:24`): run `_from_bits`, keep the
term, map `None` to the `NotATerm` error. -/
def from_bits (input : List Nat) : ParseRes :=
  match pfb (input.length + 1) input with
  | .parsed t _ => .ok t
  | .failed => .notATerm
  | .panicked => .panicked

/-- `from_binary` (`src/binary_encoding.rs:23`); the function body is
identical to `from_bits`. -/
def from_binary (input : List Nat) : ParseRes := from_bits input

/-- `to_bits` (`src/encoding/binary.rs:81`): `Var i ↦ 1^i 0`,
`Abs b ↦ 00 ++ to_bits b`, `App f x ↦ 01 ++ to_bits f ++ to_bits x`,
as ASCII bytes. -/
def to_bits : Term → List Nat
  | .Var i => List.replicate i 49 ++ [48]
  | .Abs b => 48 :: 48 :: to_bits b
  | .App f x => 48 :: 49 :: (to_bits f ++ to_bits x)

/-- `to_binary` (`src/binary_encoding.rs:82`); identical body. -/
def to_binary (t : Term) : List Nat := to_bits t

/-- `bits_to_byte` (`src/encoding/binary.rs:136`): fold
`acc * 2 + (b - 48)` over the 8 ASCII bits; `u8` arithmetic, modelled with
wrapping (`% 256`, truncated `Nat` subtraction), which agrees with the
source on ASCII `'0'/'1'` input. -/
def bits_to_byte (bits : List Nat) : Nat :=
  bits.foldl (fun acc b => (acc * 2 + (b - 48)) % 256) 0

/-- The chunking loop of `compress`, reached only when
`bits.length ≥ 8`: emit 8-bit groups, right-padding the last partial group
with `'0'` (48).  Structural fuel: each iteration drops 8 bits, so
`bits.length + 1` iterations always suffice. -/
def compressGoF : Nat → List Nat → List Nat
  | 0, _ => []
  | fuel + 1, bits =>
    if 8 ≤ bits.length then
      bits_to_byte (bits.take 8) :: compressGoF fuel (bits.drop 8)
    else if bits = [] then []
    else [bits_to_byte (bits ++ List.replicate (8 - bits.length) 48)]

/-- The `compress` loop at its canonical fuel. -/
def compressGo (bits : List Nat) : List Nat :=
  compressGoF (bits.length + 1) bits

/-- `compress` (`src/encoding/binary.rs:116`).  The loop guard is
`pos <= length - 8` on `usize`: for `length < 8` (including the empty
input) the subtraction underflows, and `&bits[pos..pos+8]` is out of
bounds — a panic in both debug and release mode, modelled as `none`. -/
def compress (bits : List Nat) : Option (List Nat) :=
  if bits.length < 8 then none
  else some (compressGo bits)

/-- The 8-character string `format!("{:08b}", byte)` as ASCII bytes
(big-endian bits), for `byte < 256`. -/
def byteBits (b : Nat) : List Nat :=
  [48 + b / 128 % 2, 48 + b / 64 % 2, 48 + b / 32 % 2, 48 + b / 16 % 2,
   48 + b / 8 % 2, 48 + b / 4 % 2, 48 + b / 2 % 2, 48 + b % 2]

/-- `decompress` (`src/encoding/binary.rs:150`): each byte emits its 8
binary ASCII digits, most significant first.  (`binary_encoding.rs`
additionally applies `u8::to_be`, a no-op on a single byte.) -/
def decompress (bytes : List Nat) : List Nat :=
  bytes.flatMap byteBits

/-! ## Pair-list helpers: `src/pair_list.rs`

A Church pair is extracted by optionally stripping one `Abs` and matching
`App (App _ h) t`; that is the common core of `uncons`, `uncons_ref`,
`uncons_mut` and `unpair_ref` in the source (`candidate.unapp()` followed
by `wrapped_a.rhs()`). -/

/-- `let candidate = if let Abs(a) = term { a } else { term }`. -/
def stripAbs : Term → Term
  | .Abs b => b
  | t => t

/-- The shared shape destructuring of `uncons_ref`/`uncons_mut`/
`unpair_ref` (`src/pair_list.rs`): no list check. -/
def unconsRaw (t : Term) : Option (Term × Term) :=
  match stripAbs t with
  | .App (.App _ h) tl => some (h, tl)
  | _ => none

/-- The `while let Ok(second) = snd_ref(...)` loop inside `last_ref`
(`src/pair_list.rs:84`): follow second components until a non-pair is
reached.  Written by structural recursion so it computes by `decide`. -/
def lastFrom : Term → Term
  | .Abs (.App (.App _ _) tl) => lastFrom tl
  | .App (.App _ _) tl => lastFrom tl
  | t => t

/-- `ListError` (`src/pair_list.rs:7`). -/
inductive ListError where
  | NotAList : ListError
deriving DecidableEq, Repr

/-- `is_pair` (`src/pair_list.rs:73`). -/
def is_pair (t : Term) : Bool := (unconsRaw t).isSome

/-- `last_ref` (`src/pair_list.rs:81`): fail on a non-pair, otherwise
follow `snd` to the end. -/
def last_ref (t : Term) : Except ListError Term :=
  match unconsRaw t with
  | some (_, tl) => .ok (lastFrom tl)
  | none => .error .NotAList

/-- `is_list` (`src/pair_list.rs:92`): `last_ref(term) == Ok(&fls())`. -/
def is_list (t : Term) : Bool :=
  match last_ref t with
  | .ok l => l = fls
  | .error _ => false

/-- `head_ref` (`src/pair_list.rs:96`): `uncons_ref`, first component —
no list check. -/
def head_ref (t : Term) : Except ListError Term :=
  match unconsRaw t with
  | some (h, _) => .ok h
  | none => .error .NotAList

/-- `uncons` (`src/pair_list.rs:11`): unlike `uncons_ref`, it first
requires `is_list`. -/
def uncons (t : Term) : Except ListError (Term × Term) :=
  if is_list t = false then .error .NotAList
  else
    match unconsRaw t with
    | some p => .ok p
    | none => .error .NotAList

/-- `tail` (`src/pair_list.rs:100`): second component of (checked)
`uncons`. -/
def tail (t : Term) : Except ListError Term :=
  match uncons t with
  | .ok (_, tl) => .ok tl
  | .error e => .error e

/-- `push` (`src/pair_list.rs:104`): prepend to a list (or `fls`),
producing `λ.(1 term list)`. -/
def push (list term : Term) : Except ListError Term :=
  if is_list list = false ∧ list ≠ fls then .error .NotAList
  else .ok (.Abs (.App (.App (.Var 1) term) list))

/-- The cons cell `λ.(1 h t)` built by `push`. -/
def consT (h t : Term) : Term := .Abs (.App (.App (.Var 1) h) t)

/-- `listify_terms` (`src/pair_list.rs:117`): fold `push` over the
reversed vector starting from `fls`; the `.expect("unwrap 4")` never
fires because the accumulator is always `fls` or a list
(see `listify_terms_eq_foldr`), and is modelled by an arbitrary
`Var 0` default. -/
def listify_terms (ts : List Term) : Term :=
  ts.reverse.foldl
    (fun acc t =>
      match push acc t with
      | .ok r => r
      | .error _ => .Var 0) fls

/-- `vectorize_list` (`src/pair_list.rs:127`): repeatedly `pop` (which
uses the uncons shape without a list check) and collect the heads.
Structural recursion, mirroring `pop`'s `uncons_mut`. -/
def vectorize_list : Term → List Term
  | .Abs (.App (.App _ h) tl) => h :: vectorize_list tl
  | .App (.App _ h) tl => h :: vectorize_list tl
  | _ => []

/-! ## Lambda codec: `src/encoding/lambda.rs` -/

/-- The chained destructor
`t.unabs().and_then(|t| t.unabs()).and_then(|t| t.unvar())` used on each
bit of an encoded byte; `unabs`/`unvar` are the crate destructors of
spec §4.A (`Abs(body) ↦ body`, `Var(i) ↦ i`, error otherwise). -/
def unabs2unvar : Term → Option Nat
  | .Abs (.Abs (.Var k)) => some k
  | _ => none

/-- The codec error `encoding::binary::Error::NotATerm` reused by
`encoding::lambda`. -/
inductive BinError where
  | NotATerm : BinError
deriving DecidableEq, Repr

/-- `decode_byte` (`src/encoding/lambda.rs:37`): destructure every popped
element as `λλ(Var k)`, fail with `NotATerm` if any does not match,
otherwise assemble `(k - 1) as u8` bits big-endian and bitwise-complement
the result.  `(k - 1) as u8` is wrapping `usize` subtraction followed by
`u8` truncation, i.e. `(k + 255) % 256`; `!x` on `u8` is `255 - x`. -/
def decode_byte (encoded_byte : Term) : Except BinError Nat :=
  let bits := (vectorize_list encoded_byte).map unabs2unvar
  if bits.any (fun b => b.isNone) then .error .NotATerm
  else .ok (255 - (bits.map (fun b => (b.getD 0 + 255) % 256)).foldl
    (fun acc b => (acc * 2 + b) % 256) 0)

/-- Decimal digits of a natural number as a list of codepoints. -/
def natDigits (n : Nat) : List Nat := (Nat.toDigits 10 n).map Char.toNat

/-- Modelled from the spec: the human rendering of a term used by the
fallback branch of both decoders (`format!("({:?})", term)` /
`format!("({})", term)`), whose implementation lives in the external
`lambda_calculus` crate, not under `src/`.  Spec §4.A: variables as their
De Bruijn number, abstraction as `λ<body>`, application juxtaposed with
parentheses around an abstraction on the left and around any non-variable
on the right (the scheme reproducing the spec's fixture strings).  The
spec's single-letter mnemonic for large free variables is not modelled;
no claim exercises it.  `λ` is codepoint 955. -/
def display : Term → List Nat
  | .Var i => natDigits i
  | .Abs b => 955 :: display b
  | .App f x =>
    (if isAbsT f then (40 :: display f) ++ [41] else display f) ++
    (if isVarT x then display x else (40 :: display x) ++ [41])
where
  /-- `Abs` shape test. -/
  isAbsT : Term → Bool
  | .Abs _ => true
  | _ => false
  /-- `Var` shape test. -/
  isVarT : Term → Bool
  | .Var _ => true
  | _ => false

/-- The comparison `term.head_ref() == Ok(&e)` used by the decoders: an
`Err` result never equals an `Ok`. -/
def headEq (t e : Term) : Bool :=
  match head_ref t with
  | .ok h => h = e
  | .error _ => false

/-- Result of `decode` (`src/encoding/lambda.rs:20`,
`Result<String, Error>`), with the possible panics of the
`// safe`-annotated `unwrap`s modelled explicitly. -/
inductive DecRes where
  | panicked : DecRes
  | failed : DecRes
  | ok : List Nat → DecRes
deriving DecidableEq, Repr

/-- Fueled embedding of `decode` (`src/encoding/lambda.rs:20`).  Every
recursive call is on the tail of a successful `uncons`, a strict subterm,
so fuel `tsize t` (used by `decode`) always suffices and the fuel-0 case
is unreachable.  The `head_ref(&term).unwrap()` inside the second guard
is only evaluated when `is_list` already holds (Rust `&&` shortcuts), so
it cannot panic; the `tail(term).unwrap()` of branches 3/4 can, because
those branches do not require `term` to be a list. -/
def decodeF : Nat → Term → DecRes
  | 0, _ => .panicked
  | fuel + 1, t =>
    if t = fls then .ok []
    else if is_list t &&
        (match head_ref t with | .ok h => is_list h | .error _ => false) then
      match uncons t with
      | .ok (hd, tl) =>
        match decode_byte hd with
        | .error _ => .failed
        | .ok byte =>
          match decodeF fuel tl with
          | .ok s => .ok (byte :: s)
          | r => r
      | .error _ => .panicked
    else if headEq t fls then
      match tail t with
      | .ok tl =>
        match decodeF fuel tl with
        | .ok s => .ok (49 :: s)
        | r => r
      | .error _ => .panicked
    else if headEq t tru then
      match tail t with
      | .ok tl =>
        match decodeF fuel tl with
        | .ok s => .ok (48 :: s)
        | r => r
      | .error _ => .panicked
    else .ok ((40 :: display t) ++ [41])

/-- `decode` (`src/encoding/lambda.rs:20`) at its canonical fuel. -/
def decode (t : Term) : DecRes := decodeF (tsize t) t

/-- `encode_bit` (`src/encoding/lambda.rs:54`): `'0' ↦ tru`, `'1' ↦ fls`;
the `unreachable!()` arm is modelled by an arbitrary value. -/
def encode_bit (b : Nat) : Term :=
  if b = 48 then tru else if b = 49 then fls else .Var 0

/-- `encode_byte` (`src/encoding/lambda.rs:48`): the 8 binary digits of
the byte, each Church-encoded, collected into a list. -/
def encode_byte (b : Nat) : Term :=
  listify_terms ((byteBits b).map encode_bit)

/-- `encode` (`src/encoding/lambda.rs:73`). -/
def encode (input : List Nat) : Term :=
  listify_terms (input.map encode_byte)

/-! ## Old lambda codec: `src/lambda_encoding.rs`

This is the revision `src/execution.rs` links against (`lib.rs` declares
`lambda_encoding`/`binary_encoding`).  Its `decode` returns a bare
`String` and panics (`.unwrap()`) on a byte-shaped list whose bits are
not `λλ(Var k)`; its list primitives (`Term::is_list`, `head_ref`,
`uncons`, `tail`, `into_iter` of the old `lambda_calculus` crate) are not
under `src/` and are modelled by the `pair_list` semantics of spec §4.D,
which `src/pair_list.rs` reimplements verbatim. -/

/-- `encode_byte` (`src/lambda_encoding.rs:46`): ASCII `'0'`/`'1'` bytes
become bare Church booleans; any other byte recurses through `encode` on
its 8 binary digits — those digits are all ASCII `'0'`/`'1'`, so that
inner call is unrolled here to a fold of Church bits. -/
def encode_byte_old (b : Nat) : Term :=
  if b = 48 then tru
  else if b = 49 then fls
  else (byteBits b).foldr (fun c acc => consT (if c = 48 then tru else fls) acc) fls

/-- `encode` (`src/lambda_encoding.rs:63`): right-fold of (old) `push`
over the input bytes starting from `nil = fls`. -/
def encode_old (input : List Nat) : Term :=
  input.foldr (fun b acc => consT (encode_byte_old b) acc) fls

/-- Fueled embedding of the old `decode` (`src/lambda_encoding.rs:20`,
returning `String`): same branch structure as `decodeF`, but the byte
branch `unwrap`s each bit destructuring, so a malformed bit is a panic
(`none`) instead of an `Err`.  Fuel `tsize t` always suffices, as for
`decodeF`. -/
def decode_oldF : Nat → Term → Option (List Nat)
  | 0, _ => none
  | fuel + 1, t =>
    if t = fls then some []
    else if is_list t &&
        (match head_ref t with | .ok h => is_list h | .error _ => false) then
      match uncons t with
      | .ok (hd, tl) =>
        let bits := (vectorize_list hd).map unabs2unvar
        if bits.any (fun b => b.isNone) then none
        else
          let byte := 255 - (bits.map (fun b => (b.getD 0 + 255) % 256)).foldl
            (fun acc b => (acc * 2 + b) % 256) 0
          (decode_oldF fuel tl).map (fun s => byte :: s)
      | .error _ => none
    else if headEq t fls then
      match tail t with
      | .ok tl => (decode_oldF fuel tl).map (fun s => 49 :: s)
      | .error _ => none
    else if headEq t tru then
      match tail t with
      | .ok tl => (decode_oldF fuel tl).map (fun s => 48 :: s)
      | .error _ => none
    else some ((40 :: display t) ++ [41])

/-- The old `decode` at its canonical fuel; `none` is a panic. -/
def decode_old (t : Term) : Option (List Nat) := decode_oldF (tsize t) t

/-! ## Reducer

Modelled from the spec: the β-reduction engine (`beta(term, NOR, 0)` of
the external `lambda_calculus` crate) is not part of this repository's
`src/`; spec §4.B specifies it as De Bruijn shifting, substitution, and
normal-order (leftmost-outermost) reduction to full normal form, with
`limit = 0` meaning "run until a normal form is reached".  It is modelled
here by a leftmost-outermost single-step function iterated under fuel;
once a normal form is reached the iteration is stationary
(`betaNorF_of_normal`), which is how the unlimited reduction of the
driver is expressed. -/

/-- Modelled from the spec (§4.B): `shift(d, c, t)` adds `d` to every
variable with index `> c`. -/
def shift (d : Int) : Nat → Term → Term
  | c, .Var i => if i ≤ c then .Var i else .Var ((i : Int) + d).toNat
  | c, .Abs b => .Abs (shift d (c + 1) b)
  | c, .App f x => .App (shift d c f) (shift d c x)

/-- Modelled from the spec (§4.B): `subst(t, j, s)` replaces free
`Var(j)` with `shift(j-1, 0, s)`. -/
def subst : Term → Nat → Term → Term
  | .Var i, j, s => if i = j then shift ((j : Int) - 1) 0 s else .Var i
  | .Abs b, j, s => .Abs (subst b (j + 1) s)
  | .App f x, j, s => .App (subst f j s) (subst x j s)

/-- Modelled from the spec (§4.B): β-contraction of `App(Abs(b), a)` is
`shift(-1, 0, subst(b, 1, shift(1, 0, a)))`. -/
def contract (b x : Term) : Term :=
  shift (-1) 0 (subst b 1 (shift 1 0 x))

/-- Modelled from the spec (§4.B): one normal-order (leftmost-outermost)
β-step; `none` means the term is in normal form. -/
def norStep : Term → Option Term
  | .Var _ => none
  | .Abs b =>
    match norStep b with
    | some b2 => some (.Abs b2)
    | none => none
  | .App (.Abs b) x => some (contract b x)
  | .App f x =>
    match norStep f with
    | some f2 => some (.App f2 x)
    | none =>
      match norStep x with
      | some x2 => some (.App f x2)
      | none => none

/-- Modelled from the spec (§4.B): iterate normal-order steps, at most
`fuel` of them, stopping at a normal form. -/
def betaNorF : Nat → Term → Term
  | 0, t => t
  | fuel + 1, t =>
    match norStep t with
    | some t2 => betaNorF fuel t2
    | none => t

/-- Spec §3: a term is closed at level `c` iff every `Var(i)` occurs
under at least `i - c` further `Abs` binders; `closedAt 0` is the spec's
closedness. -/
def closedAt : Nat → Term → Bool
  | c, .Var i => i ≤ c
  | c, .Abs b => closedAt (c + 1) b
  | c, .App f x => closedAt c f && closedAt c x

/-! ## Execution driver: `src/execution.rs` -/

/-- `Input` (`src/execution.rs:19`). -/
inductive Input where
  | Nothing : Input
  | Binary : List Nat → Input
  | Bytes : List Nat → Input

/-- Outcome of `run`: the two `execution::Error` values, a successful
string, or a panic escaping from parsing or decoding. -/
inductive RunRes where
  | panicked : RunRes
  | invalidProgram : RunRes
  | invalidArgument : RunRes
  | ok : List Nat → RunRes
deriving DecidableEq, Repr

/-- `run` (`src/execution.rs:39`), with `beta(_, NOR, 0)` modelled by
`betaNorF fuel` (see the reducer section): parse the program
(`InvalidProgram` on `Err`), build the application according to the input
variant (`InvalidArgument` when a `Binary` argument fails to parse),
reduce, and decode with the old panicking `decode`. -/
def runF (fuel : Nat) (blc_program : List Nat) (input : Input) : RunRes :=
  match from_binary blc_program with
  | .panicked => .panicked
  | .notATerm => .invalidProgram
  | .ok program =>
    match input with
    | .Nothing =>
      match decode_old (betaNorF fuel program) with
      | some s => .ok s
      | none => .panicked
    | .Bytes arg =>
      match decode_old (betaNorF fuel (.App program (encode_old arg))) with
      | some s => .ok s
      | none => .panicked
    | .Binary arg =>
      match from_binary arg with
      | .panicked => .panicked
      | .notATerm => .invalidArgument
      | .ok a =>
        match decode_old (betaNorF fuel (.App program a)) with
        | some s => .ok s
        | none => .panicked

/-- Well-formed terms in the sense of the BLC grammar (spec §3, §4.C):
every De Bruijn index is positive.  `to_bits` restricted to such terms is
exactly the image of the grammar
`Term := 00 Term | 01 Term Term | 1^i 0 (i ≥ 1)`, so "a well-formed bit
string that encodes exactly one complete term" is a string of the form
`to_bits t` with `wfTerm t`. -/
def wfTerm : Term → Bool
  | .Var i => 1 ≤ i
  | .Abs b => wfTerm b
  | .App f x => wfTerm f && wfTerm x

/-- The bytes of the test input `"herp derp"` (`tests/identity.rs`). -/
def herpDerp : List Nat := [104, 101, 114, 112, 32, 100, 101, 114, 112]

/-!
# Theorems
-/

/-! ## Sanity checks against the source's own test fixtures -/

example : from_bits [48, 48, 48, 48, 49, 49, 48] = .ok (.Abs (.Abs (.Var 2))) := by decide
example : from_bits [49, 49] = .ok (.Var 2) := by decide
example : from_bits [49] = .panicked := by decide
example : from_bits [] = .notATerm := by decide
example : decompress [32] = [48, 48, 49, 48, 48, 48, 48, 48] := by decide
example : compress (decompress [1, 203, 218]) = some [1, 203, 218] := by decide
example : compress [] = none := by decide

/-! ## The parser inverts the serializer (C1) -/

theorem takeWhile_ones (i : Nat) (rest : List Nat) :
    (List.replicate i 49 ++ 48 :: rest).takeWhile (fun c => c = 49) =
      List.replicate i 49 := by
  induction i with
  | zero => simp [List.takeWhile_cons]
  | succ j ih => simp [List.replicate_succ, List.takeWhile_cons, ih]

theorem drop_ones (i : Nat) (rest : List Nat) :
    (List.replicate i 49 ++ 48 :: rest).drop (i + 1) = rest := by
  induction i with
  | zero => simp
  | succ j ih => simpa [List.replicate_succ] using ih

/-- The variable branch of the parser: `1^i 0` parses to `Var i` and
consumes exactly `i + 1` bytes. -/
theorem pfb_var (i : Nat) (h : 1 ≤ i) (rest : List Nat) (fuel : Nat)
    (hf : i + 1 + rest.length < fuel) :
    pfb fuel (List.replicate i 49 ++ 48 :: rest) = .parsed (.Var i) rest := by
  obtain ⟨f, rfl⟩ : ∃ f, fuel = f + 1 := ⟨fuel - 1, by omega⟩
  obtain ⟨j, rfl⟩ : ∃ j, i = j + 1 := ⟨i - 1, by omega⟩
  cases j with
  | zero =>
    cases rest with
    | nil => simp [pfb]
    | cons r rs => simp [pfb, List.takeWhile_cons]
  | succ k =>
    have hne : List.replicate k 49 ++ 48 :: rest ≠ [] := by
      cases k <;> simp [List.replicate_succ]
    have htw := takeWhile_ones (k + 2) rest
    have hdr := drop_ones (k + 2) rest
    simp only [List.replicate_succ, List.cons_append] at htw hdr ⊢
    simp [pfb, hne, htw, hdr, List.replicate_succ]

/-- The parser applied to `to_bits t ++ rest` for a well-formed `t`
returns `t` and leaves `rest`, for any sufficient fuel. -/
theorem pfb_to_bits (t : Term) : ∀ (rest : List Nat) (fuel : Nat),
    wfTerm t = true → (to_bits t).length + rest.length < fuel →
    pfb fuel (to_bits t ++ rest) = .parsed t rest := by
  induction t with
  | Var i =>
    intro rest fuel hw hf
    have h1 : 1 ≤ i := by simpa [wfTerm] using hw
    have he : to_bits (.Var i) ++ rest = List.replicate i 49 ++ 48 :: rest := by
      simp [to_bits]
    rw [he]
    exact pfb_var i h1 rest fuel (by simp [to_bits] at hf; omega)
  | Abs b ih =>
    intro rest fuel hw hf
    obtain ⟨f, rfl⟩ : ∃ f, fuel = f + 1 := ⟨fuel - 1, by omega⟩
    have hb : wfTerm b = true := by simpa [wfTerm] using hw
    have he : to_bits (.Abs b) ++ rest = 48 :: 48 :: (to_bits b ++ rest) := by
      simp [to_bits]
    rw [he]
    have ihb := ih rest f hb (by simp [to_bits] at hf; omega)
    simp [pfb, ihb]
  | App g x ihg ihx =>
    intro rest fuel hw hf
    obtain ⟨f, rfl⟩ : ∃ f, fuel = f + 1 := ⟨fuel - 1, by omega⟩
    have hg : wfTerm g = true := by simp [wfTerm] at hw; exact hw.1
    have hx : wfTerm x = true := by simp [wfTerm] at hw; exact hw.2
    have he : to_bits (.App g x) ++ rest
        = 48 :: 49 :: (to_bits g ++ (to_bits x ++ rest)) := by
      simp [to_bits]
    rw [he]
    have ihg2 := ihg (to_bits x ++ rest) f hg
      (by simp [to_bits] at hf ⊢; omega)
    have ihx2 := ihx rest f hx (by simp [to_bits] at hf; omega)
    simp [pfb, ihg2, ihx2]

/-- C1: for every well-formed whitespace-free bit string `s` that encodes
exactly one complete term (i.e. `s = to_bits t` for a grammar-conforming
`t`), `from_bits s` succeeds and `to_bits (from_bits s) = s`. -/
theorem binary_round_trip (s : List Nat) (t : Term)
    (hw : wfTerm t = true) (hs : s = to_bits t) :
    ∃ t2, from_bits s = .ok t2 ∧ to_bits t2 = s := by
  subst hs
  refine ⟨t, ?_, rfl⟩
  have h := pfb_to_bits t [] ((to_bits t).length + 1) hw (by simp)
  rw [List.append_nil] at h
  unfold from_bits
  rw [h]

theorem binary_round_trip_witness :
    wfTerm (.Abs (.Abs (.Var 2))) = true ∧
    ∃ t2, from_bits [48, 48, 48, 48, 49, 49, 48] = .ok t2 ∧
      to_bits t2 = [48, 48, 48, 48, 49, 49, 48] :=
  ⟨by decide,
   binary_round_trip [48, 48, 48, 48, 49, 49, 48] (.Abs (.Abs (.Var 2)))
     (by decide) (by decide)⟩

/-! ## Parser error behaviour (C2, C9) -/

/-- C2 (code bug): on the one-byte input `"1"` (byte 49) the parser does
not return the `NotATerm` error — the source slices `&input[0..2]` on a
one-byte slice, which panics.  The same happens for `"0"`. -/
theorem from_bits_one_byte_panics : from_bits [49] = .panicked := by decide

/-- C9: `from_bits(b"11")` returns `Ok(Var(2))` — a two-byte input of
only `'1'` bits, with no terminating `'0'`, is accepted as a variable
rather than rejected with `NotATerm` (the `input[2..].is_empty()` special
case of the variable branch). -/
theorem from_bits_bare_ones : from_bits [49, 49] = .ok (.Var 2) := by decide

/-! ## Packing (C4, C5) -/

/-- C4 (code bug): `compress(decompress([]))` does not return `[]` — the
`compress` loop guard `pos <= length - 8` underflows on the empty bit
string and the byte-slicing panics, modelled as `none`. -/
theorem compress_decompress_empty_panics :
    compress (decompress []) = none := by decide

/-- C5 (code bug): `compress` is not total — on the 3-bit input `"010"`
(and any input shorter than 8 bits) the `length - 8` underflow makes it
panic instead of returning the right-padded packing. -/
theorem compress_short_input_panics : compress [48, 49, 48] = none := by decide

/-! ## Lambda codec round trip (C3) -/

theorem lastFrom_consT (h t : Term) : lastFrom (consT h t) = lastFrom t := rfl

theorem is_list_consT (h t : Term) :
    is_list (consT h t) = decide (lastFrom t = fls) := rfl

theorem head_ref_consT (h t : Term) : head_ref (consT h t) = .ok h := rfl

theorem unconsRaw_consT (h t : Term) : unconsRaw (consT h t) = some (h, t) := rfl

theorem uncons_consT (h t : Term) (hl : is_list (consT h t) = true) :
    uncons (consT h t) = .ok (h, t) := by
  simp [uncons, hl, unconsRaw_consT]

/-- The list built by `foldr consT fls` always ends in `fls`. -/
theorem lastFrom_foldr (ts : List Term) :
    lastFrom (ts.foldr consT fls) = fls := by
  induction ts with
  | nil => rfl
  | cons h t ih => rw [List.foldr_cons, lastFrom_consT]; exact ih

/-- `listify_terms` is the plain right fold of cons cells: the
`.expect("unwrap 4")` on `push` never fires because the accumulator is
always `fls` or a list. -/
theorem listify_terms_eq_foldr (ts : List Term) :
    listify_terms ts = ts.foldr consT fls := by
  unfold listify_terms
  rw [List.foldl_reverse]
  induction ts with
  | nil => rfl
  | cons h t ih =>
    rw [List.foldr_cons, List.foldr_cons, ih]
    have hp : ¬(is_list (t.foldr consT fls) = false ∧ t.foldr consT fls ≠ fls) := by
      cases t with
      | nil => simp
      | cons h2 t2 =>
        rw [List.foldr_cons, is_list_consT, lastFrom_foldr]
        simp
    simp [push, hp, consT]

theorem encode_eq_foldr (bs : List Nat) :
    encode bs = bs.foldr (fun b acc => consT (encode_byte b) acc) fls := by
  unfold encode
  rw [listify_terms_eq_foldr, List.foldr_map]

theorem lastFrom_encode (bs : List Nat) : lastFrom (encode bs) = fls := by
  rw [encode_eq_foldr]
  induction bs with
  | nil => rfl
  | cons b rest ih => rw [List.foldr_cons, lastFrom_consT]; exact ih

/-- Every `encode_byte b` is recognized as a list. -/
theorem is_list_encode_byte (b : Nat) : is_list (encode_byte b) = true := by
  unfold encode_byte byteBits
  rw [listify_terms_eq_foldr]
  simp only [List.map_cons, List.map_nil, List.foldr_cons, List.foldr_nil]
  rw [is_list_consT]
  simp only [lastFrom_consT]
  rfl

set_option maxRecDepth 10000 in
/-- Decoding a single encoded byte recovers the byte: the bitwise
complement in `decode_byte` cancels the `0 ↦ tru = λλ2`, `1 ↦ fls = λλ1`
inversion of `encode_bit`. -/
theorem decode_byte_encode_byte_fin :
    ∀ b : Fin 256, decode_byte (encode_byte b.val) = .ok b.val := by decide

theorem decode_byte_encode_byte (b : Nat) (h : b < 256) :
    decode_byte (encode_byte b) = .ok b :=
  decode_byte_encode_byte_fin ⟨b, h⟩

theorem tsize_consT (h t : Term) : tsize (consT h t) = tsize h + tsize t + 4 := by
  simp [consT, tsize]; omega

/-- `decodeF` on an encoded byte string, for any sufficient fuel. -/
theorem decodeF_encode (bs : List Nat) : ∀ (fuel : Nat),
    tsize (encode bs) ≤ fuel → (∀ b ∈ bs, b < 256) →
    decodeF fuel (encode bs) = .ok bs := by
  induction bs with
  | nil =>
    intro fuel hf _
    have he : encode [] = fls := rfl
    rw [he] at hf ⊢
    obtain ⟨f, rfl⟩ : ∃ f, fuel = f + 1 := ⟨fuel - 1, by simp [tsize, fls] at hf; omega⟩
    simp [decodeF]
  | cons b rest ih =>
    intro fuel hf hlt
    have he : encode (b :: rest) = consT (encode_byte b) (encode rest) := by
      rw [encode_eq_foldr, List.foldr_cons, ← encode_eq_foldr]
    rw [he] at hf ⊢
    rw [tsize_consT] at hf
    obtain ⟨f, rfl⟩ : ∃ f, fuel = f + 1 := ⟨fuel - 1, by omega⟩
    have hne : ¬(consT (encode_byte b) (encode rest) = fls) := by
      simp [consT, fls]
    have hl : is_list (consT (encode_byte b) (encode rest)) = true := by
      rw [is_list_consT, lastFrom_encode]; simp
    have hguard : (is_list (consT (encode_byte b) (encode rest)) &&
        match head_ref (consT (encode_byte b) (encode rest)) with
        | .ok h => is_list h
        | .error _ => false) = true := by
      rw [hl, head_ref_consT]
      simp [is_list_encode_byte]
    have hun := uncons_consT (encode_byte b) (encode rest) hl
    have hdb := decode_byte_encode_byte b (hlt b (by simp))
    have hih := ih f (by omega) (fun c hc => hlt c (by simp [hc]))
    simp only [decodeF]
    rw [if_neg hne, if_pos hguard]
    simp [hun, hdb, hih]

/-- C3: for every byte sequence `bs`, `decode(encode(bs))` succeeds and
returns `bs` read as text (each byte as the character of its codepoint);
the bitwise complement applied when assembling a decoded byte exactly
cancels the `tru`/`fls` inversion introduced by `encode_bit`. -/
theorem lambda_round_trip (bs : List Nat) (h : ∀ b ∈ bs, b < 256) :
    decode (encode bs) = .ok bs :=
  decodeF_encode bs (tsize (encode bs)) (Nat.le_refl _) h

theorem lambda_round_trip_witness : decode (encode herpDerp) = .ok herpDerp :=
  lambda_round_trip herpDerp (by decide)

/-! ## Closedness (C6) -/

theorem closedAt_mono (t : Term) : ∀ (a b : Nat), a ≤ b →
    closedAt a t = true → closedAt b t = true := by
  induction t with
  | Var i => intro a b hab h; simp [closedAt] at h ⊢; omega
  | Abs bo ih =>
    intro a b hab h
    simp only [closedAt] at h ⊢
    exact ih (a + 1) (b + 1) (by omega) h
  | App f x ihf ihx =>
    intro a b hab h
    simp only [closedAt, Bool.and_eq_true] at h ⊢
    exact ⟨ihf a b hab h.1, ihx a b hab h.2⟩

/-- Shifting up by `d` from any cutoff turns a term closed at level `m`
into one closed at level `m + d`. -/
theorem closedAt_shift_up (t : Term) : ∀ (m d k : Nat),
    closedAt m t = true → closedAt (m + d) (shift (d : Int) k t) = true := by
  induction t with
  | Var i =>
    intro m d k h
    simp only [closedAt, decide_eq_true_eq] at h
    by_cases hk : i ≤ k
    · simp [shift, hk, closedAt]; omega
    · simp [shift, hk, closedAt]; omega
  | Abs b ih =>
    intro m d k h
    simp only [closedAt] at h ⊢
    have := ih (m + 1) d (k + 1) h
    simpa [Nat.add_right_comm] using this
  | App f x ihf ihx =>
    intro m d k h
    simp only [closedAt, Bool.and_eq_true] at h
    simp only [shift, closedAt, Bool.and_eq_true]
    exact ⟨ihf m d k h.1, ihx m d k h.2⟩

/-- Shifting down by 1 from a cutoff below the closure level reduces the
closure level by 1. -/
theorem closedAt_shift_down (t : Term) : ∀ (c k : Nat), k ≤ c →
    closedAt (c + 1) t = true → closedAt c (shift (-1) k t) = true := by
  induction t with
  | Var i =>
    intro c k hk h
    simp only [closedAt, decide_eq_true_eq] at h
    by_cases hik : i ≤ k
    · simp [shift, hik, closedAt]; omega
    · simp [shift, hik, closedAt]; omega
  | Abs b ih =>
    intro c k hk h
    simp only [closedAt] at h ⊢
    exact ih (c + 1) (k + 1) (by omega) h
  | App f x ihf ihx =>
    intro c k hk h
    simp only [closedAt, Bool.and_eq_true] at h
    simp only [shift, closedAt, Bool.and_eq_true]
    exact ⟨ihf c k hk h.1, ihx c k hk h.2⟩

/-- Substituting a term closed at level `m` for `Var j` (with
`m + j ≤ c + 1`) preserves closedness at level `c`. -/
theorem closedAt_subst (b : Term) : ∀ (j : Nat) (s : Term) (c m : Nat),
    1 ≤ j → closedAt c b = true → closedAt m s = true → m + j ≤ c + 1 →
    closedAt c (subst b j s) = true := by
  induction b with
  | Var i =>
    intro j s c m hj hb hs hmc
    by_cases hij : i = j
    · subst hij
      simp only [subst, if_pos rfl]
      have hcast : ((i : Int) - 1) = ((i - 1 : Nat) : Int) := by omega
      rw [hcast]
      have h1 := closedAt_shift_up s m (i - 1) 0 hs
      exact closedAt_mono _ (m + (i - 1)) c (by omega) h1
    · simp only [subst, if_neg hij]
      simp only [closedAt, decide_eq_true_eq] at hb ⊢
      exact hb
  | Abs bo ih =>
    intro j s c m hj hb hs hmc
    simp only [subst, closedAt] at hb ⊢
    exact ih (j + 1) s (c + 1) m (by omega) hb hs (by omega)
  | App f x ihf ihx =>
    intro j s c m hj hb hs hmc
    simp only [subst, closedAt, Bool.and_eq_true] at hb ⊢
    exact ⟨ihf j s c m hj hb.1 hs hmc, ihx j s c m hj hb.2 hs hmc⟩

/-- β-contraction preserves closedness: the spec's
`shift(-1, 0, subst(b, 1, shift(1, 0, a)))` maps a redex closed at level
`c` to a term closed at level `c`. -/
theorem contract_closed (b x : Term) (c : Nat)
    (hb : closedAt (c + 1) b = true) (hx : closedAt c x = true) :
    closedAt c (contract b x) = true := by
  unfold contract
  have h1 : closedAt (c + 1) (shift 1 0 x) = true := by
    have := closedAt_shift_up x c 1 0 hx
    simpa using this
  have h2 : closedAt (c + 1) (subst b 1 (shift 1 0 x)) = true :=
    closedAt_subst b 1 (shift 1 0 x) (c + 1) (c + 1) (by omega) hb h1 (by omega)
  exact closedAt_shift_down _ c 0 (by omega) h2

/-- C6 (amended, preservation half): a normal-order β-step maps a term
closed at level `c` to a term closed at level `c`; in particular
β-reduction preserves closedness of closed terms. -/
theorem norStep_preserves_closed (t : Term) : ∀ (t2 : Term) (c : Nat),
    closedAt c t = true → norStep t = some t2 → closedAt c t2 = true := by
  induction t with
  | Var i => intro t2 c hc h; simp [norStep] at h
  | Abs b ih =>
    intro t2 c hc h
    simp only [norStep] at h
    cases hb : norStep b with
    | some b2 =>
      rw [hb] at h
      simp only [Option.some.injEq] at h
      subst h
      simp only [closedAt] at hc ⊢
      exact ih b2 (c + 1) hc hb
    | none => rw [hb] at h; simp at h
  | App f x ihf ihx =>
    intro t2 c hc h
    simp only [closedAt, Bool.and_eq_true] at hc
    cases f with
    | Abs b =>
      simp only [norStep, Option.some.injEq] at h
      subst h
      simp only [closedAt] at hc
      exact contract_closed b x c hc.1 hc.2
    | Var i =>
      simp only [norStep] at h
      cases hx2 : norStep x with
      | some x2 =>
        rw [hx2] at h
        simp only [Option.some.injEq] at h
        subst h
        simp only [closedAt, Bool.and_eq_true]
        exact ⟨hc.1, ihx x2 c hc.2 hx2⟩
      | none => rw [hx2] at h; simp at h
    | App g y =>
      simp only [norStep] at h
      cases hf2 : norStep (.App g y) with
      | some f2 =>
        rw [hf2] at h
        simp only [Option.some.injEq] at h
        subst h
        simp only [closedAt, Bool.and_eq_true]
        exact ⟨ihf f2 c hc.1 hf2, hc.2⟩
      | none =>
        rw [hf2] at h
        cases hx2 : norStep x with
        | some x2 =>
          rw [hx2] at h
          simp only [Option.some.injEq] at h
          subst h
          have h1 := hc.1
          simp only [closedAt, Bool.and_eq_true] at h1 ⊢
          exact ⟨h1, ihx x2 c hc.2 hx2⟩
        | none => rw [hx2] at h; simp at h

theorem norStep_preserves_closed_witness :
    closedAt 0 (.App (.Abs (.Var 1)) (.Abs (.Var 1))) = true ∧
    norStep (.App (.Abs (.Var 1)) (.Abs (.Var 1))) = some (.Abs (.Var 1)) ∧
    closedAt 0 (.Abs (.Var 1)) = true :=
  ⟨by decide, by decide,
   norStep_preserves_closed (.App (.Abs (.Var 1)) (.Abs (.Var 1)))
     (.Abs (.Var 1)) 0 (by decide) (by decide)⟩

/-- C6 (counterexample): `from_bits` can succeed with an open term — the
input `"110"` parses to `Var 2`, which is not closed, so parsing does not
establish closedness. -/
theorem parse_can_return_open_term :
    from_bits [49, 49, 48] = .ok (.Var 2) ∧ closedAt 0 (.Var 2) = false := by
  decide

/-! ## Driver error mapping (C7) -/

/-- C7: `run` returns `InvalidProgram` when the program bits fail to
parse (the parser returns its `NotATerm` error), and — when the program
parses — `InvalidArgument` when a `Binary` input's bits fail to parse;
this holds for every reduction budget and every input variant. -/
theorem run_parse_error_mapping (fuel : Nat) (prog : List Nat) (input : Input) :
    (from_binary prog = .notATerm → runF fuel prog input = .invalidProgram) ∧
    (∀ p bs, from_binary prog = .ok p → input = .Binary bs →
      from_binary bs = .notATerm → runF fuel prog input = .invalidArgument) := by
  constructor
  · intro h
    simp [runF, h]
  · intro p bs hp hi hb
    subst hi
    simp [runF, hp, hb]

theorem run_parse_error_mapping_witness :
    runF 0 [] Input.Nothing = .invalidProgram ∧
    runF 0 [48, 48, 49, 48] (Input.Binary []) = .invalidArgument :=
  ⟨(run_parse_error_mapping 0 [] Input.Nothing).1 (by decide),
   (run_parse_error_mapping 0 [48, 48, 49, 48] (Input.Binary [])).2
     (.Abs (.Var 1)) [] (by decide) rfl (by decide)⟩

/-! ## The identity program scenario (C8) -/

/-- Once a normal form is reached, further normal-order iteration is
stationary; this is how `beta(_, NOR, 0)` ("no limit; run until a normal
form") is expressed for the fueled model. -/
theorem betaNorF_of_normal (n : Nat) (t : Term) (h : norStep t = none) :
    betaNorF n t = t := by
  induction n with
  | zero => rfl
  | succ k ih => simp [betaNorF, h, ih]

/-- C8: `run(decompress([0x20]), Bytes("herp derp"))` returns
`Ok("herp derp")`: the byte `0x20` decompresses to `"00100000"`, which
parses (ignoring the five trailing bits) as the identity `λ1`; applying
it to the lambda-encoded input β-reduces in one step to the encoded
input, whose decoding is the original text.  The result is the same for
every reduction budget of at least one step, i.e. for the source's
unlimited reduction. -/
theorem run_identity_herp_derp (fuel : Nat) (h : 1 ≤ fuel) :
    runF fuel (decompress [32]) (.Bytes herpDerp) = .ok herpDerp := by
  obtain ⟨k, rfl⟩ : ∃ k, fuel = k + 1 := ⟨fuel - 1, by omega⟩
  have hp : from_binary (decompress [32]) = .ok (.Abs (.Var 1)) := by decide
  have hstep : norStep (.App (.Abs (.Var 1)) (encode_old herpDerp))
      = some (encode_old herpDerp) := by decide
  have hnf : norStep (encode_old herpDerp) = none := by decide
  have hdec : decode_old (encode_old herpDerp) = some herpDerp := by decide
  have hbeta : betaNorF (k + 1) (.App (.Abs (.Var 1)) (encode_old herpDerp))
      = encode_old herpDerp := by
    simp only [betaNorF, hstep]
    exact betaNorF_of_normal k _ hnf
  simp [runF, hp, hbeta, hdec]

theorem run_identity_herp_derp_witness :
    runF 1 (decompress [32]) (.Bytes herpDerp) = .ok herpDerp :=
  run_identity_herp_derp 1 (by norm_num)

/-! ## Errors arise only from parsing; decoding can panic (C10) -/

/-- C10 (counterexample): a parseable program (here in serialized form,
the bits of `λ.(1 (λ.(1 2 nil)) nil)`) whose normal form is a list whose
head is a list containing the non-boolean bit `Var 2` makes the decode
stage of `run` panic — the old `decode` `.unwrap()`s each bit — so `run`
does not return `Ok` even though the program parses and the input is
`Nothing`. -/
theorem run_decode_can_panic :
    from_binary (to_binary (.Abs (.App (.App (.Var 1)
        (.Abs (.App (.App (.Var 1) (.Var 2)) fls))) fls)))
      = .ok (.Abs (.App (.App (.Var 1)
          (.Abs (.App (.App (.Var 1) (.Var 2)) fls))) fls)) ∧
    runF 1 (to_binary (.Abs (.App (.App (.Var 1)
        (.Abs (.App (.App (.Var 1) (.Var 2)) fls))) fls))) .Nothing
      = .panicked := by
  decide

/-- C10 (amended): `run`'s error values arise only from parsing — when
the program bits parse and the input is not a `Binary` variant whose
argument fails to parse, the result is `Ok` of the decoded reduction
result, except that the decode stage may panic (it never produces an
error value). -/
theorem run_error_only_from_parsing (fuel : Nat) (prog : List Nat)
    (input : Input) (p : Term) (hp : from_binary prog = .ok p)
    (harg : ∀ bs, input = .Binary bs → from_binary bs ≠ .notATerm) :
    runF fuel prog input = .panicked ∨ ∃ s, runF fuel prog input = .ok s := by
  cases input with
  | Nothing =>
    simp only [runF, hp]
    cases hd : decode_old (betaNorF fuel p) <;> simp [hd]
  | Bytes arg =>
    simp only [runF, hp]
    cases hd : decode_old (betaNorF fuel (.App p (encode_old arg))) <;> simp [hd]
  | Binary arg =>
    simp only [runF, hp]
    cases hb : from_binary arg with
    | panicked => simp
    | notATerm => exact absurd hb (harg arg rfl)
    | ok a => cases hd : decode_old (betaNorF fuel (.App p a)) <;> simp [hd]

theorem run_error_only_from_parsing_witness :
    runF 1 [48, 48, 49, 48] Input.Nothing = .panicked ∨
    ∃ s, runF 1 [48, 48, 49, 48] Input.Nothing = .ok s :=
  run_error_only_from_parsing 1 [48, 48, 49, 48] Input.Nothing (.Abs (.Var 1))
    (by decide) (fun bs h => nomatch h)

/-! ## Packing round trips away from the short-input bug (C4/C5 support) -/

/-- `compress` behaves as the spec says on every input of at least 8
bits: the underflow panic is confined to inputs shorter than one byte. -/
theorem compress_total_from_8 (s : List Nat) (h : 8 ≤ s.length) :
    compress s = some (compressGo s) := by
  unfold compress
  rw [if_neg (by omega)]

set_option maxRecDepth 10000 in
theorem bits_to_byte_byteBits : ∀ x : Fin 256, bits_to_byte (byteBits x.val) = x.val := by
  decide

theorem byteBits_length (x : Nat) : (byteBits x).length = 8 := rfl

theorem decompress_nil : decompress [] = [] := rfl

theorem decompress_cons (x : Nat) (bs : List Nat) :
    decompress (x :: bs) = byteBits x ++ decompress bs := by
  simp [decompress]

theorem decompress_length (b : List Nat) : (decompress b).length = 8 * b.length := by
  induction b with
  | nil => rfl
  | cons x bs ih =>
    rw [decompress_cons, List.length_append, byteBits_length, ih]
    simp
    omega

theorem compressGoF_nil (fuel : Nat) : compressGoF fuel [] = [] := by
  cases fuel <;> simp [compressGoF]

/-- The `compress` loop inverts `decompress` chunk by chunk. -/
theorem compressGoF_decompress (b : List Nat) : ∀ (fuel : Nat),
    (∀ x ∈ b, x < 256) → b.length ≤ fuel →
    compressGoF fuel (decompress b) = b := by
  induction b with
  | nil => intro fuel _ _; rw [decompress_nil, compressGoF_nil]
  | cons x bs ih =>
    intro fuel hlt hf
    obtain ⟨f, rfl⟩ : ∃ f, fuel = f + 1 := ⟨fuel - 1, by simp at hf; omega⟩
    rw [decompress_cons]
    have hlen : (byteBits x ++ decompress bs).length = 8 + 8 * bs.length := by
      rw [List.length_append, byteBits_length, decompress_length]
    have htake : (byteBits x ++ decompress bs).take 8 = byteBits x := by
      have := List.take_left (byteBits x) (decompress bs)
      rwa [byteBits_length] at this
    have hdrop : (byteBits x ++ decompress bs).drop 8 = decompress bs := by
      have := List.drop_left (byteBits x) (decompress bs)
      rwa [byteBits_length] at this
    have hbyte : bits_to_byte (byteBits x) = x :=
      bits_to_byte_byteBits ⟨x, hlt x (by simp)⟩
    simp only [compressGoF, hlen]
    rw [if_pos (by omega), htake, hdrop, hbyte,
      ih f (fun y hy => hlt y (by simp [hy])) (by simp at hf; omega)]

/-- C4's first round trip away from the bug: for every nonempty byte
sequence `b`, `compress(decompress(b)) = b`. -/
theorem compress_decompress_bytes (b : List Nat) (hne : b ≠ [])
    (hlt : ∀ x ∈ b, x < 256) : compress (decompress b) = some b := by
  have hlen : (decompress b).length = 8 * b.length := decompress_length b
  have hb1 : 1 ≤ b.length := by
    cases b with
    | nil => exact absurd rfl hne
    | cons x bs => simp
  rw [compress_total_from_8 _ (by omega)]
  unfold compressGo
  rw [compressGoF_decompress b _ hlt (by omega)]

/-- Reassembling the 8 ASCII bits of a byte-aligned chunk gives back the
chunk. -/
theorem byteBits_bits_to_byte (c : List Nat) (hl : c.length = 8)
    (hb : ∀ x ∈ c, x = 48 ∨ x = 49) : byteBits (bits_to_byte c) = c := by
  obtain ⟨b1, c1, rfl⟩ := List.exists_of_length_succ c hl
  simp only [List.length_cons, Nat.succ.injEq] at hl
  obtain ⟨b2, c2, rfl⟩ := List.exists_of_length_succ c1 hl
  simp only [List.length_cons, Nat.succ.injEq] at hl
  obtain ⟨b3, c3, rfl⟩ := List.exists_of_length_succ c2 hl
  simp only [List.length_cons, Nat.succ.injEq] at hl
  obtain ⟨b4, c4, rfl⟩ := List.exists_of_length_succ c3 hl
  simp only [List.length_cons, Nat.succ.injEq] at hl
  obtain ⟨b5, c5, rfl⟩ := List.exists_of_length_succ c4 hl
  simp only [List.length_cons, Nat.succ.injEq] at hl
  obtain ⟨b6, c6, rfl⟩ := List.exists_of_length_succ c5 hl
  simp only [List.length_cons, Nat.succ.injEq] at hl
  obtain ⟨b7, c7, rfl⟩ := List.exists_of_length_succ c6 hl
  simp only [List.length_cons, Nat.succ.injEq] at hl
  obtain ⟨b8, c8, rfl⟩ := List.exists_of_length_succ c7 hl
  simp only [List.length_cons, Nat.succ.injEq] at hl
  have hc8 : c8 = [] := List.eq_nil_of_length_eq_zero hl
  subst hc8
  have h1 := hb b1 (by simp)
  have h2 := hb b2 (by simp)
  have h3 := hb b3 (by simp)
  have h4 := hb b4 (by simp)
  have h5 := hb b5 (by simp)
  have h6 := hb b6 (by simp)
  have h7 := hb b7 (by simp)
  have h8 := hb b8 (by simp)
  rcases h1 with rfl | rfl <;> rcases h2 with rfl | rfl <;>
    rcases h3 with rfl | rfl <;> rcases h4 with rfl | rfl <;>
    rcases h5 with rfl | rfl <;> rcases h6 with rfl | rfl <;>
    rcases h7 with rfl | rfl <;> rcases h8 with rfl | rfl <;> decide

/-- Unpacking what the `compress` loop packed recovers any byte-aligned
ASCII bit string. -/
theorem decompress_compressGoF (fuel : Nat) : ∀ (s : List Nat),
    (∀ x ∈ s, x = 48 ∨ x = 49) → s.length % 8 = 0 → s.length ≤ fuel →
    decompress (compressGoF fuel s) = s := by
  induction fuel with
  | zero =>
    intro s _ _ hf
    have : s = [] := List.eq_nil_of_length_eq_zero (by omega)
    subst this
    rfl
  | succ f ih =>
    intro s hb hmod hf
    by_cases hs : s = []
    · subst hs; rfl
    · have hpos : 1 ≤ s.length := by
        cases s with
        | nil => exact absurd rfl hs
        | cons a l => simp
      have h8 : 8 ≤ s.length := by omega
      simp only [compressGoF, if_pos h8]
      rw [decompress_cons]
      have htl : (s.take 8).length = 8 := by simp [List.length_take]; omega
      have hchunk : byteBits (bits_to_byte (s.take 8)) = s.take 8 :=
        byteBits_bits_to_byte (s.take 8) htl
          (fun x hx => hb x (List.mem_of_mem_take hx))
      rw [hchunk, ih (s.drop 8)
        (fun x hx => hb x (List.mem_of_mem_drop hx))
        (by simp [List.length_drop]; omega)
        (by simp [List.length_drop]; omega)]
      exact List.take_append_drop 8 s

/-- C4's second round trip away from the bug: for every ASCII bit string
`s` of nonzero length `8k`, `decompress(compress(s)) = s`. -/
theorem decompress_compress_bits (s : List Nat) (hne : s ≠ [])
    (hb : ∀ x ∈ s, x = 48 ∨ x = 49) (hmod : s.length % 8 = 0) :
    (compress s).map decompress = some s := by
  have hpos : 1 ≤ s.length := by
    cases s with
    | nil => exact absurd rfl hne
    | cons a l => simp
  rw [compress_total_from_8 s (by omega)]
  unfold compressGo
  have hgo := decompress_compressGoF (s.length + 1) s hb hmod (by omega)
  simp [hgo]

/-! ## Fuel soundness of the parser embedding

`from_bits` runs `pfb` at fuel `input.length + 1`.  The two lemmas below
justify that choice: every successful parse consumes at least two bytes,
and above the input length the result does not depend on the fuel, so the
fueled definition agrees with the unbounded Rust recursion. -/

/-- A successful parse consumes at least two bytes of the input. -/
theorem pfb_rest_length : ∀ (fuel : Nat) (input : List Nat) (t : Term) (r : List Nat),
    pfb fuel input = .parsed t r → r.length + 2 ≤ input.length := by
  intro fuel
  induction fuel with
  | zero => intro input t r h; simp [pfb] at h
  | succ f ih =>
    intro input t r h
    cases input with
    | nil => simp [pfb] at h
    | cons b bs =>
      simp only [pfb] at h
      by_cases hws : b = 9 ∨ b = 10 ∨ b = 13 ∨ b = 32
      · rw [if_pos hws] at h
        have := ih bs t r h
        simp only [List.length_cons]
        omega
      · rw [if_neg hws] at h
        cases bs with
        | nil => simp at h
        | cons b1 rest2 =>
          dsimp only [] at h
          by_cases h00 : b = 48 ∧ b1 = 48
          · rw [if_pos h00] at h
            cases hp : pfb f rest2 with
            | parsed t0 r0 =>
              simp only [hp, PRes.parsed.injEq] at h
              obtain ⟨-, rfl⟩ := h
              have := ih rest2 t0 r0 hp
              simp only [List.length_cons]
              omega
            | panicked => simp [hp] at h
            | failed => simp [hp] at h
          · rw [if_neg h00] at h
            by_cases h01 : b = 48 ∧ b1 = 49
            · rw [if_pos h01] at h
              cases hp1 : pfb f rest2 with
              | parsed t1 r1 =>
                simp only [hp1] at h
                cases hp2 : pfb f r1 with
                | parsed t2 r2 =>
                  simp only [hp2, PRes.parsed.injEq] at h
                  obtain ⟨-, rfl⟩ := h
                  have ha := ih rest2 t1 r1 hp1
                  have hb2 := ih r1 t2 r2 hp2
                  simp only [List.length_cons]
                  omega
                | panicked => simp [hp2] at h
                | failed => simp [hp2] at h
              | panicked => simp [hp1] at h
              | failed => simp [hp1] at h
            · rw [if_neg h01] at h
              by_cases h1x : b = 49 ∧ (b1 = 48 ∨ b1 = 49)
              · rw [if_pos h1x] at h
                by_cases hr2 : rest2 = []
                · rw [if_pos hr2] at h
                  simp only [PRes.parsed.injEq] at h
                  obtain ⟨-, rfl⟩ := h
                  simp
                · rw [if_neg hr2] at h
                  by_cases hlen : (b :: b1 :: rest2).length <
                      ((b :: b1 :: rest2).takeWhile (fun c => c = 49)).length + 1
                  · rw [if_pos hlen] at h
                    simp at h
                  · rw [if_neg hlen] at h
                    simp only [PRes.parsed.injEq] at h
                    obtain ⟨-, rfl⟩ := h
                    obtain ⟨rfl, -⟩ := h1x
                    have hi : 1 ≤ ((49 :: b1 :: rest2).takeWhile
                        (fun c => c = 49)).length := by
                      rw [List.takeWhile_cons]
                      simp
                    simp only [List.length_drop, List.length_cons] at hlen ⊢
                    omega
              · rw [if_neg h1x] at h
                simp at h

/-- Above the input length the parser does not depend on its fuel: the
canonical fuel `input.length + 1` used by `from_bits` computes the same
result as any other sufficient fuel. -/
theorem pfb_fuel_irrelevant : ∀ (n f g : Nat) (input : List Nat),
    input.length ≤ n → input.length < f → input.length < g →
    pfb f input = pfb g input := by
  intro n
  induction n with
  | zero =>
    intro f g input hn hf hg
    have hnil : input = [] := List.eq_nil_of_length_eq_zero (by omega)
    subst hnil
    obtain ⟨f1, rfl⟩ : ∃ k, f = k + 1 := ⟨f - 1, by omega⟩
    obtain ⟨g1, rfl⟩ : ∃ k, g = k + 1 := ⟨g - 1, by omega⟩
    rfl
  | succ m ih =>
    intro f g input hn hf hg
    obtain ⟨f1, rfl⟩ : ∃ k, f = k + 1 := ⟨f - 1, by omega⟩
    obtain ⟨g1, rfl⟩ : ∃ k, g = k + 1 := ⟨g - 1, by omega⟩
    cases input with
    | nil => rfl
    | cons b bs =>
      simp only [pfb]
      simp only [List.length_cons] at hn hf hg
      by_cases hws : b = 9 ∨ b = 10 ∨ b = 13 ∨ b = 32
      · rw [if_pos hws, if_pos hws]
        exact ih f1 g1 bs (by omega) (by omega) (by omega)
      · rw [if_neg hws, if_neg hws]
        cases bs with
        | nil => rfl
        | cons b1 rest2 =>
          dsimp only []
          simp only [List.length_cons] at hn hf hg
          by_cases h00 : b = 48 ∧ b1 = 48
          · rw [if_pos h00, if_pos h00,
              ih f1 g1 rest2 (by omega) (by omega) (by omega)]
          · rw [if_neg h00, if_neg h00]
            by_cases h01 : b = 48 ∧ b1 = 49
            · rw [if_pos h01, if_pos h01,
                ih f1 g1 rest2 (by omega) (by omega) (by omega)]
              cases hp : pfb g1 rest2 with
              | parsed t1 r1 =>
                have hr1 := pfb_rest_length g1 rest2 t1 r1 hp
                dsimp only []
                rw [ih f1 g1 r1 (by omega) (by omega) (by omega)]
              | panicked => rfl
              | failed => rfl
            · rw [if_neg h01, if_neg h01]

/-! ## Fuel soundness of the decoder and packer embeddings

`decode`/`decode_old` run their loops at fuel `tsize t`; the recursion
is always on the tail of a successful (checked) `uncons`, a strict
subterm, so that fuel suffices and the embeddings agree with the
unbounded Rust recursion.  Likewise `compressGo` runs its loop at fuel
`bits.length + 1` while each iteration drops 8 bits. -/

theorem tsize_pos (t : Term) : 1 ≤ tsize t := by
  cases t <;> simp [tsize]

theorem unconsRaw_tsize (t h tl : Term) (e : unconsRaw t = some (h, tl)) :
    tsize h < tsize t ∧ tsize tl < tsize t := by
  cases t with
  | Var i => simp [unconsRaw, stripAbs] at e
  | Abs b =>
    cases b with
    | Var i => simp [unconsRaw, stripAbs] at e
    | Abs b2 => simp [unconsRaw, stripAbs] at e
    | App g x =>
      cases g with
      | Var i => simp [unconsRaw, stripAbs] at e
      | Abs b3 => simp [unconsRaw, stripAbs] at e
      | App a h2 =>
        simp only [unconsRaw, stripAbs, Option.some.injEq, Prod.mk.injEq] at e
        obtain ⟨rfl, rfl⟩ := e
        simp [tsize]
        omega
  | App g x =>
    cases g with
    | Var i => simp [unconsRaw, stripAbs] at e
    | Abs b3 => simp [unconsRaw, stripAbs] at e
    | App a h2 =>
      simp only [unconsRaw, stripAbs, Option.some.injEq, Prod.mk.injEq] at e
      obtain ⟨rfl, rfl⟩ := e
      simp [tsize]
      omega

theorem uncons_tsize (t h tl : Term) (e : uncons t = .ok (h, tl)) :
    tsize h < tsize t ∧ tsize tl < tsize t := by
  unfold uncons at e
  by_cases hl : is_list t = false
  · simp [hl] at e
  · rw [if_neg hl] at e
    cases hu : unconsRaw t with
    | some p =>
      obtain ⟨p1, p2⟩ := p
      rw [hu] at e
      dsimp only [] at e
      simp only [Except.ok.injEq, Prod.mk.injEq] at e
      obtain ⟨rfl, rfl⟩ := e
      exact unconsRaw_tsize t p1 p2 hu
    | none => rw [hu] at e; simp at e

theorem tail_tsize (t tl : Term) (e : tail t = .ok tl) : tsize tl < tsize t := by
  unfold tail at e
  cases hu : uncons t with
  | ok p =>
    obtain ⟨p1, p2⟩ := p
    rw [hu] at e
    dsimp only [] at e
    simp only [Except.ok.injEq] at e
    subst e
    exact (uncons_tsize t p1 p2 hu).2
  | error e2 => rw [hu] at e; simp at e

/-- `decodeF` does not depend on its fuel above `tsize t`. -/
theorem decodeF_fuel_irrelevant : ∀ (n f g : Nat) (t : Term),
    tsize t ≤ n → tsize t ≤ f → tsize t ≤ g → decodeF f t = decodeF g t := by
  intro n
  induction n with
  | zero =>
    intro f g t hn _ _
    exact absurd hn (by have := tsize_pos t; omega)
  | succ m ih =>
    intro f g t hn hf hg
    obtain ⟨f1, rfl⟩ : ∃ k, f = k + 1 := ⟨f - 1, by have := tsize_pos t; omega⟩
    obtain ⟨g1, rfl⟩ : ∃ k, g = k + 1 := ⟨g - 1, by have := tsize_pos t; omega⟩
    simp only [decodeF]
    by_cases h1 : t = fls
    · rw [if_pos h1, if_pos h1]
    · rw [if_neg h1, if_neg h1]
      by_cases h2 : (is_list t &&
          match head_ref t with | .ok h => is_list h | .error _ => false) = true
      · rw [if_pos h2, if_pos h2]
        cases hu : uncons t with
        | ok p =>
          obtain ⟨hd, tl⟩ := p
          have hs := uncons_tsize t hd tl hu
          dsimp only []
          cases decode_byte hd with
          | error e => rfl
          | ok byte =>
            rw [ih f1 g1 tl (by omega) (by omega) (by omega)]
        | error e => rfl
      · rw [if_neg h2, if_neg h2]
        by_cases h3 : headEq t fls = true
        · rw [if_pos h3, if_pos h3]
          cases ht : tail t with
          | ok tl =>
            have hs := tail_tsize t tl ht
            dsimp only []
            rw [ih f1 g1 tl (by omega) (by omega) (by omega)]
          | error e => rfl
        · rw [if_neg h3, if_neg h3]
          by_cases h4 : headEq t tru = true
          · rw [if_pos h4, if_pos h4]
            cases ht : tail t with
            | ok tl =>
              have hs := tail_tsize t tl ht
              dsimp only []
              rw [ih f1 g1 tl (by omega) (by omega) (by omega)]
            | error e => rfl
          · rw [if_neg h4, if_neg h4]

/-- `decode_oldF` does not depend on its fuel above `tsize t`. -/
theorem decode_oldF_fuel_irrelevant : ∀ (n f g : Nat) (t : Term),
    tsize t ≤ n → tsize t ≤ f → tsize t ≤ g →
    decode_oldF f t = decode_oldF g t := by
  intro n
  induction n with
  | zero =>
    intro f g t hn _ _
    exact absurd hn (by have := tsize_pos t; omega)
  | succ m ih =>
    intro f g t hn hf hg
    obtain ⟨f1, rfl⟩ : ∃ k, f = k + 1 := ⟨f - 1, by have := tsize_pos t; omega⟩
    obtain ⟨g1, rfl⟩ : ∃ k, g = k + 1 := ⟨g - 1, by have := tsize_pos t; omega⟩
    simp only [decode_oldF]
    by_cases h1 : t = fls
    · rw [if_pos h1, if_pos h1]
    · rw [if_neg h1, if_neg h1]
      by_cases h2 : (is_list t &&
          match head_ref t with | .ok h => is_list h | .error _ => false) = true
      · rw [if_pos h2, if_pos h2]
        cases hu : uncons t with
        | ok p =>
          obtain ⟨hd, tl⟩ := p
          have hs := uncons_tsize t hd tl hu
          dsimp only []
          rw [ih f1 g1 tl (by omega) (by omega) (by omega)]
        | error e => rfl
      · rw [if_neg h2, if_neg h2]
        by_cases h3 : headEq t fls = true
        · rw [if_pos h3, if_pos h3]
          cases ht : tail t with
          | ok tl =>
            have hs := tail_tsize t tl ht
            dsimp only []
            rw [ih f1 g1 tl (by omega) (by omega) (by omega)]
          | error e => rfl
        · rw [if_neg h3, if_neg h3]
          by_cases h4 : headEq t tru = true
          · rw [if_pos h4, if_pos h4]
            cases ht : tail t with
            | ok tl =>
              have hs := tail_tsize t tl ht
              dsimp only []
              rw [ih f1 g1 tl (by omega) (by omega) (by omega)]
            | error e => rfl
          · rw [if_neg h4, if_neg h4]

/-- `compressGoF` does not depend on its fuel above `bits.length`. -/
theorem compressGoF_fuel_irrelevant : ∀ (n f g : Nat) (bits : List Nat),
    bits.length ≤ n → bits.length < f → bits.length < g →
    compressGoF f bits = compressGoF g bits := by
  intro n
  induction n with
  | zero =>
    intro f g bits hn hf hg
    have hnil : bits = [] := List.eq_nil_of_length_eq_zero (by omega)
    subst hnil
    rw [compressGoF_nil, compressGoF_nil]
  | succ m ih =>
    intro f g bits hn hf hg
    obtain ⟨f1, rfl⟩ : ∃ k, f = k + 1 := ⟨f - 1, by omega⟩
    obtain ⟨g1, rfl⟩ : ∃ k, g = k + 1 := ⟨g - 1, by omega⟩
    simp only [compressGoF]
    by_cases h8 : 8 ≤ bits.length
    · rw [if_pos h8, if_pos h8,
        ih f1 g1 (bits.drop 8) (by simp [List.length_drop]; omega)
          (by simp [List.length_drop]; omega) (by simp [List.length_drop]; omega)]
    · rw [if_neg h8, if_neg h8]
